import Mathlib

/-! Blockchain parser (`src/visor/blockchain_parser.go`)

A shallow embedding of `BlockchainParser.parseTo` and `BlockchainParser.Run`.

* Go's `int64` / `uint64` values are integers / naturals with explicit
  wrap-around (`int64`, `uint64` below).
* A Go `error` is an `Option String`: `none` is `nil`, `some msg` is an error
  whose message is `msg`.
* The collaborators of the parser (`coin.Block`, `visor.Blockchain`,
  `historydb.HistoryDB`) live in other packages; they are modelled from the
  specification, each one marked as such.
* Every call the parser makes to a collaborator is recorded, in order, in a
  list of `Call`s, so that statements about "what was called, and when" can be
  made about the embedding.
-/

namespace Visor

/-! ## Machine integers -/

/-- Conversion to Go's `int64`: two's-complement wrap-around into `[-2^63, 2^63)`, that is
`(x + 2^63) % 2^64 - 2^63` (lemma `int64_eq_wrap`). A value of magnitude below `2^63` is
returned as it is, without arithmetic. -/
def int64 (x : Int) : Int :=
  if x.natAbs < 9223372036854775808 then x
  else (x + 9223372036854775808) % 18446744073709551616 - 9223372036854775808

/-- Conversion to Go's `uint64`: reduction modulo `2^64`. -/
def uint64 (x : Int) : Nat :=
  (x % 18446744073709551616).toNat

/-! ## Collaborators -/

/-- Modelled from the spec: the header of `coin.Block` (package `coin` is not part of the
sources at hand); only the sequence number (height) is read by the parser. -/
structure BlockHeader where
  BkSeq : Nat
deriving DecidableEq, Repr

/-- Modelled from the spec: `coin.Block`, "an immutable record carrying a strictly increasing
sequence number (height), a header, and a body of transactions". The body is kept as an
uninterpreted payload. -/
structure Block where
  Head : BlockHeader
  Body : Nat
deriving DecidableEq, Repr

/-- Modelled from the spec: `visor.Blockchain`, the Block Source, which "exposes the canonical
chain — current head height and random-access lookup of a confirmed block by its height
(depth)". `GetBlockInDepth d = none` is Go's `nil` result. -/
structure Blockchain where
  Head : Block
  GetBlockInDepth : Nat → Option Block

/-- Modelled from the spec: the persisted contents of `historydb.HistoryDB`, the Index Store:
the "parsed height" watermark (an `int64` as returned by `ParsedHeight()`) and the blocks whose
effects have been applied to the derived index, oldest first. -/
structure HistoryDB where
  parsedHeight : Int
  indexed : List Block
deriving DecidableEq, Repr

/-- Calls made by the parser to its collaborators, and invocations of the progress callback. -/
inductive Call where
  | GetBlockInDepth (depth : Nat)
  | ProcessBlock (b : Block)
  | SetParsedHeight (h : Nat)
  | parsedFunc (f : Nat) (height : Nat)
deriving DecidableEq, Repr

/-- BlockchainParser parses the blockchain and stores the data into historydb.

`bc` is the chain, `parsedFunc` the optional progress callback (identified by a number).
The channels `blkC`, `closing` and `startC` are represented by the event list given to `Run`.
The handle `historyDB` is split in two: its persisted contents are threaded through the
operations as a `HistoryDB` value, and the outcome of its fallible operations is given by
`processErr` (the error `ProcessBlock` returns for a block) and `persistErr` (the error
`SetParsedHeight` returns for a height). -/
structure BlockchainParser where
  bc : Blockchain
  parsedFunc : Option Nat
  processErr : Block → Option String
  persistErr : Nat → Option String

/-- ParserOption option type which will be used when creating parser instance. -/
abbrev ParserOption := BlockchainParser → BlockchainParser

/-- NewBlockchainParser create and init the parser instance. -/
def NewBlockchainParser (processErr : Block → Option String) (persistErr : Nat → Option String)
    (bc : Blockchain) (ops : List ParserOption) : BlockchainParser :=
  ops.foldl (fun bp op => op bp)
    { bc := bc, parsedFunc := none, processErr := processErr, persistErr := persistErr }

/-- ParseNotifier sets the callback function that will be invoked when block is parsed. -/
def ParseNotifier (f : Nat) : ParserOption :=
  fun p => { p with parsedFunc := some f }

/-- Modelled from the spec: `HistoryDB.ParsedHeight()`, "persisted watermark". -/
def HistoryDB.ParsedHeight (hd : HistoryDB) : Int :=
  hd.parsedHeight

/-- Modelled from the spec: `HistoryDB.ProcessBlock(b)`, which "atomically applies one block's
effects to the derived index and nothing else": on success the block is added to the index, on
failure nothing changes; the watermark is not touched either way. -/
def HistoryDB.ProcessBlock (bcp : BlockchainParser) (hd : HistoryDB) (b : Block) :
    HistoryDB × Option String :=
  match bcp.processErr b with
  | some err => (hd, some err)
  | none => ({ hd with indexed := hd.indexed ++ [b] }, none)

/-- Modelled from the spec: `HistoryDB.SetParsedHeight(h)`, "durable watermark update": on
success the watermark read back by `ParsedHeight()` is `h` (as an `int64`), on failure "the
watermark did not move". -/
def HistoryDB.SetParsedHeight (bcp : BlockchainParser) (hd : HistoryDB) (h : Nat) :
    HistoryDB × Option String :=
  match bcp.persistErr h with
  | some err => (hd, some err)
  | none => ({ hd with parsedHeight := int64 h }, none)

/-! ## `parseTo` -/

/-- Result of one `parseTo` call: the contents of the history database afterwards, the calls
made (in order), and the returned error. -/
structure Outcome where
  historyDB : HistoryDB
  calls : List Call
  err : Option String

/-- The `for` loop of `parseTo`: `for i := int64(0); i < int64(bcHeight)-parsedHeight; i++`.
The first argument is the number of iterations still allowed by the loop condition
(`int64(bcHeight)-parsedHeight - i`, or `0` when that is negative); `i` is the loop variable. -/
def parseLoop (bcp : BlockchainParser) (parsedHeight : Int) :
    Nat → Int → HistoryDB → Outcome
  | 0, _, hd => { historyDB := hd, calls := [], err := none }
  | n + 1, i, hd =>
    let depth := uint64 (int64 (parsedHeight + i + 1))
    match bcp.bc.GetBlockInDepth depth with
    | none =>
      { historyDB := hd
        calls := [Call.GetBlockInDepth depth]
        err := some ("no block exist in depth:" ++ toString (int64 (parsedHeight + i + 1))) }
    | some b =>
      match HistoryDB.ProcessBlock bcp hd b with
      | (hd1, some err) =>
        { historyDB := hd1
          calls := [Call.GetBlockInDepth depth, Call.ProcessBlock b]
          err := some err }
      | (hd1, none) =>
        let r := parseLoop bcp parsedHeight n (int64 (i + 1)) hd1
        { historyDB := r.historyDB
          calls := Call.GetBlockInDepth depth :: Call.ProcessBlock b :: r.calls
          err := r.err }

/-- The method `parseTo(bcHeight uint64) error`. -/
def parseTo (bcp : BlockchainParser) (hd : HistoryDB) (bcHeight : Nat) : Outcome :=
  let parsedHeight := hd.ParsedHeight
  let r := parseLoop bcp parsedHeight (int64 (int64 bcHeight - parsedHeight)).toNat 0 hd
  match r.err with
  | some err => { historyDB := r.historyDB, calls := r.calls, err := some err }
  | none =>
    let s := HistoryDB.SetParsedHeight bcp r.historyDB bcHeight
    { historyDB := s.1, calls := r.calls ++ [Call.SetParsedHeight bcHeight], err := s.2 }

/-! ## `Run` -/

/-- What the `select` of `Run` receives: a stop request from `closing`, or a block from `blkC`. -/
inductive Event where
  | closing
  | blk (b : Block)
deriving DecidableEq, Repr

/-- State of an execution of `Run`. `parsed` lists the `parseTo` calls made so far, each with
its argument and the error it returned; `qClosed` tells whether `close(q)` was executed;
`acked` counts the acknowledgements `cc <- struct{}{}` sent; `returned` tells whether `Run`
has returned (otherwise it is waiting in `select`). -/
structure RunState where
  historyDB : HistoryDB
  calls : List Call
  parsed : List (Nat × Option String)
  qClosed : Bool
  acked : Nat
  returned : Bool

/-- Account for one `parseTo` call inside `Run`: on error `close(q)` and return. -/
def RunState.afterParse (s : RunState) (bcHeight : Nat) (r : Outcome) : RunState :=
  match r.err with
  | some err =>
    { historyDB := r.historyDB, calls := s.calls ++ r.calls
      parsed := s.parsed ++ [(bcHeight, some err)]
      qClosed := true, acked := s.acked, returned := true }
  | none =>
    { historyDB := r.historyDB, calls := s.calls ++ r.calls
      parsed := s.parsed ++ [(bcHeight, none)]
      qClosed := s.qClosed, acked := s.acked, returned := false }

/-- The part of `Run` before the loop: parse to the blockchain head. -/
def Run.start (bcp : BlockchainParser) (hd : HistoryDB) : RunState :=
  let headSeq := bcp.bc.Head.Head.BkSeq
  RunState.afterParse
    { historyDB := hd, calls := [], parsed := [], qClosed := false, acked := 0, returned := false }
    headSeq (parseTo bcp hd headSeq)

/-- One iteration of the `for { select { ... } }` loop of `Run` on the event received.
Once `Run` has returned, nothing is received any more. -/
def Run.step (bcp : BlockchainParser) (s : RunState) (e : Event) : RunState :=
  if s.returned then s
  else
    match e with
    | Event.closing => { s with acked := s.acked + 1, returned := true }
    | Event.blk b => RunState.afterParse s b.Head.BkSeq (parseTo bcp s.historyDB b.Head.BkSeq)

/-- The method `Run(q chan struct{})`, on the sequence of events its `select` receives. -/
def Run (bcp : BlockchainParser) (hd : HistoryDB) (events : List Event) : RunState :=
  events.foldl (Run.step bcp) (Run.start bcp hd)

/-! ## Observations on call logs -/

/-- Heights (`BkSeq`) of the blocks passed to `ProcessBlock`, in call order. -/
def processedSeqs : List Call → List Nat
  | [] => []
  | Call.ProcessBlock b :: cs => b.Head.BkSeq :: processedSeqs cs
  | _ :: cs => processedSeqs cs

/-- Number of invocations of the progress callback in a call log. -/
def notifications : List Call → Nat
  | [] => 0
  | Call.parsedFunc _ _ :: cs => notifications cs + 1
  | _ :: cs => notifications cs

/-! ## Sample configurations -/

/-- A chain holding a block at every depth; its head is at height `head`. -/
def fullChain (head : Nat) : Blockchain :=
  { Head := { Head := { BkSeq := head }, Body := 0 }
    GetBlockInDepth := fun d => some { Head := { BkSeq := d }, Body := 0 } }

/-- A chain holding blocks at depths below `missing` only. -/
def chainMissing (head missing : Nat) : Blockchain :=
  { Head := { Head := { BkSeq := head }, Body := 0 }
    GetBlockInDepth := fun d =>
      if d < missing then some { Head := { BkSeq := d }, Body := 0 } else none }

/-- A parser over the given chain whose history database never fails. -/
def healthy (bc : Blockchain) : BlockchainParser :=
  NewBlockchainParser (fun _ => none) (fun _ => none) bc []

/-- A healthy parser constructed with the option `ParseNotifier 7`. -/
def notified (bc : Blockchain) : BlockchainParser :=
  NewBlockchainParser (fun _ => none) (fun _ => none) bc [ParseNotifier 7]

/-- A parser over a full chain whose `ProcessBlock` fails for the block of height `bad`. -/
def failingAt (head bad : Nat) : BlockchainParser :=
  NewBlockchainParser (fun b => if b.Head.BkSeq = bad then some "apply failed" else none)
    (fun _ => none) (fullChain head) []

/-- A history database whose watermark is `w`, with an empty index. -/
def dbAt (w : Int) : HistoryDB :=
  { parsedHeight := w, indexed := [] }


/-! ## Specification predicates -/

/-- Commit-then-advance for one `parseTo bcHeight` call started at contents `hd`: whenever the
call log shows `SetParsedHeight v` with `v` above the starting watermark, the part of the log
before it holds a `ProcessBlock` call, which succeeded, for the block of the chain at every
height in `(w, v]`. -/
def CommitThenAdvance (bcp : BlockchainParser) (hd : HistoryDB) (bcHeight : Nat) : Prop :=
  ∀ (pre post : List Call) (v : Nat),
    (parseTo bcp hd bcHeight).calls = pre ++ Call.SetParsedHeight v :: post →
    hd.parsedHeight < v →
    ∀ h : Nat, hd.parsedHeight < h → h ≤ v →
      ∃ b, bcp.bc.GetBlockInDepth h = some b ∧ bcp.processErr b = none ∧
        Call.ProcessBlock b ∈ pre

/-- The meaning of the watermark: every block of the chain with height at most the watermark
has had its effects applied (is in the index). -/
def Applied (bcp : BlockchainParser) (hd : HistoryDB) : Prop :=
  ∀ h : Nat, (h : Int) ≤ hd.parsedHeight →
    ∃ b, bcp.bc.GetBlockInDepth h = some b ∧ b ∈ hd.indexed

/-- The block source holds, at height `h`, a block of that height which `ProcessBlock`
applies successfully. -/
def GoodAt (bcp : BlockchainParser) (h : Nat) : Prop :=
  ∃ b, bcp.bc.GetBlockInDepth h = some b ∧ b.Head.BkSeq = h ∧ bcp.processErr b = none

/-- What holds of every state `Run` reaches: every `parseTo` call but the last one succeeded;
`q` is closed exactly when a call failed, and then `Run` has returned without acknowledging;
at most one acknowledgement is sent, and then `Run` has returned with `q` open. -/
def RunInv (s : RunState) : Prop :=
  (∀ p ∈ s.parsed.dropLast, p.2 = none) ∧
  (s.qClosed = true ↔ ∃ p ∈ s.parsed, p.2 ≠ none) ∧
  (s.qClosed = true → s.returned = true ∧ s.acked = 0) ∧
  s.acked ≤ 1 ∧
  (s.acked = 1 → s.returned = true ∧ s.qClosed = false) ∧
  (s.returned = false → s.acked = 0 ∧ ∀ p ∈ s.parsed, p.2 = none)

/-- Put calls made earlier in front of an outcome. -/
def Outcome.prepend (cs : List Call) (r : Outcome) : Outcome :=
  { historyDB := r.historyDB, calls := cs ++ r.calls, err := r.err }

/-! ## Machine integers: facts -/

lemma int64_eq_wrap (x : Int) :
    int64 x = (x + 9223372036854775808) % 18446744073709551616 - 9223372036854775808 := by
  unfold int64; split <;> omega

lemma int64_eq_self {x : Int} (h1 : -9223372036854775808 ≤ x) (h2 : x < 9223372036854775808) :
    int64 x = x := by
  rw [int64_eq_wrap]; omega

lemma int64_range (x : Int) : -9223372036854775808 ≤ int64 x ∧ int64 x < 9223372036854775808 := by
  rw [int64_eq_wrap]; omega

lemma uint64_natCast {n : Nat} (h : n < 18446744073709551616) : uint64 (n : Int) = n := by
  unfold uint64; omega

lemma depth_eq {w j : Nat} (h : w + j + 1 < 9223372036854775808) :
    uint64 (int64 ((w : Int) + (j : Int) + 1)) = w + j + 1 := by
  rw [int64_eq_self (by omega) (by omega)]
  have : ((w : Int) + (j : Int) + 1) = ((w + j + 1 : Nat) : Int) := by push_cast; ring
  rw [this, uint64_natCast (by omega)]

/-! ## The loop: unfolding -/

lemma parseLoop_zero (bcp : BlockchainParser) (p i : Int) (hd : HistoryDB) :
    parseLoop bcp p 0 i hd = { historyDB := hd, calls := [], err := none } := rfl

lemma parseLoop_absent (bcp : BlockchainParser) (p i : Int) (n : Nat) (hd : HistoryDB)
    (hg : bcp.bc.GetBlockInDepth (uint64 (int64 (p + i + 1))) = none) :
    parseLoop bcp p (n + 1) i hd =
      { historyDB := hd
        calls := [Call.GetBlockInDepth (uint64 (int64 (p + i + 1)))]
        err := some ("no block exist in depth:" ++ toString (int64 (p + i + 1))) } := by
  simp [parseLoop, hg]

lemma parseLoop_failed (bcp : BlockchainParser) (p i : Int) (n : Nat) (hd : HistoryDB)
    {b : Block} {e : String}
    (hg : bcp.bc.GetBlockInDepth (uint64 (int64 (p + i + 1))) = some b)
    (hp : bcp.processErr b = some e) :
    parseLoop bcp p (n + 1) i hd =
      { historyDB := hd
        calls := [Call.GetBlockInDepth (uint64 (int64 (p + i + 1))), Call.ProcessBlock b]
        err := some e } := by
  simp [parseLoop, hg, HistoryDB.ProcessBlock, hp]

lemma parseLoop_applied (bcp : BlockchainParser) (p i : Int) (n : Nat) (hd : HistoryDB)
    {b : Block}
    (hg : bcp.bc.GetBlockInDepth (uint64 (int64 (p + i + 1))) = some b)
    (hp : bcp.processErr b = none) :
    parseLoop bcp p (n + 1) i hd =
      Outcome.prepend [Call.GetBlockInDepth (uint64 (int64 (p + i + 1))), Call.ProcessBlock b]
        (parseLoop bcp p n (int64 (i + 1)) { hd with indexed := hd.indexed ++ [b] }) := by
  simp [parseLoop, hg, HistoryDB.ProcessBlock, hp, Outcome.prepend]

/-- The three ways one iteration of the loop can go. -/
lemma parseLoop_cases (bcp : BlockchainParser) (p i : Int) (n : Nat) (hd : HistoryDB) :
    (bcp.bc.GetBlockInDepth (uint64 (int64 (p + i + 1))) = none ∧
      parseLoop bcp p (n + 1) i hd =
        { historyDB := hd
          calls := [Call.GetBlockInDepth (uint64 (int64 (p + i + 1)))]
          err := some ("no block exist in depth:" ++ toString (int64 (p + i + 1))) }) ∨
    (∃ b e, bcp.bc.GetBlockInDepth (uint64 (int64 (p + i + 1))) = some b ∧
      bcp.processErr b = some e ∧
      parseLoop bcp p (n + 1) i hd =
        { historyDB := hd
          calls := [Call.GetBlockInDepth (uint64 (int64 (p + i + 1))), Call.ProcessBlock b]
          err := some e }) ∨
    (∃ b, bcp.bc.GetBlockInDepth (uint64 (int64 (p + i + 1))) = some b ∧
      bcp.processErr b = none ∧
      parseLoop bcp p (n + 1) i hd =
        Outcome.prepend
          [Call.GetBlockInDepth (uint64 (int64 (p + i + 1))), Call.ProcessBlock b]
          (parseLoop bcp p n (int64 (i + 1)) { hd with indexed := hd.indexed ++ [b] })) := by
  cases hg : bcp.bc.GetBlockInDepth (uint64 (int64 (p + i + 1))) with
  | none => exact Or.inl ⟨rfl, parseLoop_absent bcp p i n hd hg⟩
  | some b =>
    cases hp : bcp.processErr b with
    | some e => exact Or.inr (Or.inl ⟨b, e, rfl, hp, parseLoop_failed bcp p i n hd hg hp⟩)
    | none => exact Or.inr (Or.inr ⟨b, rfl, hp, parseLoop_applied bcp p i n hd hg hp⟩)

/-! ## The loop: what it never does -/

lemma processedSeqs_append (a b : List Call) :
    processedSeqs (a ++ b) = processedSeqs a ++ processedSeqs b := by
  induction a with
  | nil => rfl
  | cons c cs ih => cases c <;> simp [processedSeqs, ih]

lemma notifications_append (a b : List Call) :
    notifications (a ++ b) = notifications a + notifications b := by
  induction a with
  | nil => simp [notifications]
  | cons c cs ih => cases c <;> simp [notifications, ih]; omega

lemma parseLoop_parsedHeight (bcp : BlockchainParser) (p : Int) (n : Nat) :
    ∀ (i : Int) (hd : HistoryDB),
      (parseLoop bcp p n i hd).historyDB.parsedHeight = hd.parsedHeight := by
  induction n with
  | zero => intro i hd; rfl
  | succ n ih =>
    intro i hd
    rcases parseLoop_cases bcp p i n hd with ⟨_, h⟩ | ⟨b, e, _, _, h⟩ | ⟨b, _, _, h⟩
    · rw [h]
    · rw [h]
    · rw [h]; simp only [Outcome.prepend]; rw [ih]

lemma parseLoop_indexed (bcp : BlockchainParser) (p : Int) (n : Nat) :
    ∀ (i : Int) (hd : HistoryDB) (b : Block), b ∈ hd.indexed →
      b ∈ (parseLoop bcp p n i hd).historyDB.indexed := by
  induction n with
  | zero => intro i hd b hb; exact hb
  | succ n ih =>
    intro i hd b hb
    rcases parseLoop_cases bcp p i n hd with ⟨_, h⟩ | ⟨b', e, _, _, h⟩ | ⟨b', _, _, h⟩
    · rw [h]; exact hb
    · rw [h]; exact hb
    · rw [h]; simp only [Outcome.prepend]
      exact ih _ _ b (by simp [hb])

lemma parseLoop_notifications (bcp : BlockchainParser) (p : Int) (n : Nat) :
    ∀ (i : Int) (hd : HistoryDB), notifications (parseLoop bcp p n i hd).calls = 0 := by
  induction n with
  | zero => intro i hd; rfl
  | succ n ih =>
    intro i hd
    rcases parseLoop_cases bcp p i n hd with ⟨_, h⟩ | ⟨b', e, _, _, h⟩ | ⟨b', _, _, h⟩
    · rw [h]; rfl
    · rw [h]; rfl
    · rw [h]; simp only [Outcome.prepend, List.cons_append, List.nil_append, notifications]
      exact ih _ _

lemma parseLoop_no_set (bcp : BlockchainParser) (p : Int) (n : Nat) :
    ∀ (i : Int) (hd : HistoryDB) (v : Nat),
      Call.SetParsedHeight v ∉ (parseLoop bcp p n i hd).calls := by
  induction n with
  | zero => intro i hd v; simp [parseLoop]
  | succ n ih =>
    intro i hd v
    rcases parseLoop_cases bcp p i n hd with ⟨_, h⟩ | ⟨b', e, _, _, h⟩ | ⟨b', _, _, h⟩
    · rw [h]; simp
    · rw [h]; simp
    · rw [h]; simp only [Outcome.prepend]
      simpa using ih _ _ v

/-! ## The loop: what a successful pass has done -/

lemma parseLoop_ok_inv (bcp : BlockchainParser) (p : Int) (n : Nat) :
    ∀ (i : Int) (hd : HistoryDB), 0 ≤ i → i + n < 9223372036854775808 →
      (parseLoop bcp p n i hd).err = none →
      ∀ k : Nat, k < n →
        ∃ b, bcp.bc.GetBlockInDepth (uint64 (int64 (p + (i + k) + 1))) = some b ∧
          bcp.processErr b = none ∧
          Call.ProcessBlock b ∈ (parseLoop bcp p n i hd).calls ∧
          b ∈ (parseLoop bcp p n i hd).historyDB.indexed := by
  induction n with
  | zero => intro i hd _ _ _ k hk; omega
  | succ n ih =>
    intro i hd hi hin herr k hk
    rcases parseLoop_cases bcp p i n hd with ⟨_, h⟩ | ⟨b, e, _, _, h⟩ | ⟨b, hg, hp, h⟩
    · rw [h] at herr; simp at herr
    · rw [h] at herr; simp at herr
    · rw [h] at herr ⊢
      simp only [Outcome.prepend] at herr ⊢
      have hi1 : int64 (i + 1) = i + 1 := int64_eq_self (by omega) (by push_cast at hin; omega)
      rw [hi1] at herr ⊢
      cases k with
      | zero =>
        refine ⟨b, ?_, hp, by simp, ?_⟩
        · simpa using hg
        · exact parseLoop_indexed bcp p n _ _ b (by simp)
      | succ k =>
        obtain ⟨b', hg', hp', hc', hi'⟩ :=
          ih (i + 1) { hd with indexed := hd.indexed ++ [b] } (by omega)
            (by push_cast at hin; omega) herr k (by omega)
        have hk' : p + (i + 1 + (k : Int)) + 1 = p + (i + ((k + 1 : Nat) : Int)) + 1 := by
          push_cast; ring
        rw [hk'] at hg'
        exact ⟨b', hg', hp', by simp [hc'], hi'⟩

/-! ## The loop: a run of good heights -/

lemma parseLoop_good (bcp : BlockchainParser) (w : Nat) :
    ∀ (k m j : Nat) (hd : HistoryDB), w + j + k < 9223372036854775808 →
      (∀ h, w + j < h → h ≤ w + j + k → GoodAt bcp h) →
      ∃ cs hd', processedSeqs cs = List.range' (w + j + 1) k ∧
        hd'.parsedHeight = hd.parsedHeight ∧
        parseLoop bcp (w : Int) (k + m) (j : Int) hd =
          Outcome.prepend cs (parseLoop bcp (w : Int) m ((j + k : Nat) : Int) hd') := by
  intro k
  induction k with
  | zero =>
    intro m j hd _ _
    refine ⟨[], hd, rfl, rfl, ?_⟩
    simp [Outcome.prepend]
  | succ k ih =>
    intro m j hd hb hgood
    obtain ⟨b, hg, hseq, hp⟩ := hgood (w + j + 1) (by omega) (by omega)
    have hdep := depth_eq (w := w) (j := j) (by omega)
    rw [← hdep] at hg
    have hi1 : int64 ((j : Int) + 1) = ((j + 1 : Nat) : Int) := by
      rw [int64_eq_self (by omega) (by omega)]; push_cast; rfl
    obtain ⟨cs, hd', hcs, hph, hrec⟩ :=
      ih m (j + 1) { hd with indexed := hd.indexed ++ [b] } (by omega)
        (fun h h1 h2 => hgood h (by omega) (by omega))
    have hn : k + 1 + m = (k + m) + 1 := by omega
    have hjk : j + 1 + k = j + (k + 1) := by omega
    rw [hjk] at hrec
    refine ⟨Call.GetBlockInDepth (uint64 (int64 ((w : Int) + (j : Int) + 1))) ::
      Call.ProcessBlock b :: cs, hd', ?_, ?_, ?_⟩
    · simp only [processedSeqs, hcs, hseq]
      rw [List.range'_succ, Nat.add_right_comm w j 1, Nat.add_assoc w 1 j, Nat.add_comm 1 j]
    · rw [hph]
    · rw [hn, parseLoop_applied bcp _ _ _ _ hg hp, hi1, hrec]
      simp [Outcome.prepend]

/-! ## `parseTo`: unfolding -/

lemma parseTo_of_loop_err (bcp : BlockchainParser) (hd : HistoryDB) (t : Nat) {e : String}
    (h : (parseLoop bcp hd.parsedHeight
      (int64 (int64 t - hd.parsedHeight)).toNat 0 hd).err = some e) :
    parseTo bcp hd t =
      { historyDB := (parseLoop bcp hd.parsedHeight
          (int64 (int64 t - hd.parsedHeight)).toNat 0 hd).historyDB
        calls := (parseLoop bcp hd.parsedHeight
          (int64 (int64 t - hd.parsedHeight)).toNat 0 hd).calls
        err := some e } := by
  simp [parseTo, HistoryDB.ParsedHeight, h]

lemma parseTo_of_loop_ok (bcp : BlockchainParser) (hd : HistoryDB) (t : Nat)
    (h : (parseLoop bcp hd.parsedHeight
      (int64 (int64 t - hd.parsedHeight)).toNat 0 hd).err = none) :
    parseTo bcp hd t =
      { historyDB := (HistoryDB.SetParsedHeight bcp (parseLoop bcp hd.parsedHeight
          (int64 (int64 t - hd.parsedHeight)).toNat 0 hd).historyDB t).1
        calls := (parseLoop bcp hd.parsedHeight
          (int64 (int64 t - hd.parsedHeight)).toNat 0 hd).calls ++ [Call.SetParsedHeight t]
        err := (HistoryDB.SetParsedHeight bcp (parseLoop bcp hd.parsedHeight
          (int64 (int64 t - hd.parsedHeight)).toNat 0 hd).historyDB t).2 } := by
  simp [parseTo, HistoryDB.ParsedHeight, h]

lemma SetParsedHeight_err (bcp : BlockchainParser) (hd : HistoryDB) (t : Nat) :
    (HistoryDB.SetParsedHeight bcp hd t).2 = bcp.persistErr t := by
  unfold HistoryDB.SetParsedHeight
  cases bcp.persistErr t <;> rfl

lemma SetParsedHeight_indexed (bcp : BlockchainParser) (hd : HistoryDB) (t : Nat) :
    (HistoryDB.SetParsedHeight bcp hd t).1.indexed = hd.indexed := by
  unfold HistoryDB.SetParsedHeight
  cases bcp.persistErr t <;> rfl

lemma SetParsedHeight_height (bcp : BlockchainParser) (hd : HistoryDB) (t : Nat) :
    (HistoryDB.SetParsedHeight bcp hd t).1.parsedHeight =
      if bcp.persistErr t = none then int64 t else hd.parsedHeight := by
  unfold HistoryDB.SetParsedHeight
  cases bcp.persistErr t <;> simp

/-- Number of iterations `parseTo` allows when watermark and target are heights below `2^63`. -/
lemma iterations_eq {w t : Nat} (hw : w < 9223372036854775808) (ht : t < 9223372036854775808) :
    (int64 (int64 (t : Int) - (w : Int))).toNat = t - w := by
  rw [int64_eq_self (x := (t : Int)) (by omega) (by omega),
    int64_eq_self (by omega) (by omega)]
  omega

/-- The watermark after `parseTo` is the old one or the target. -/
lemma parseTo_parsedHeight (bcp : BlockchainParser) (hd : HistoryDB) (t : Nat) :
    (parseTo bcp hd t).historyDB.parsedHeight =
      if (parseTo bcp hd t).err = none then int64 t else hd.parsedHeight := by
  cases h : (parseLoop bcp hd.parsedHeight
      (int64 (int64 t - hd.parsedHeight)).toNat 0 hd).err with
  | some e => rw [parseTo_of_loop_err bcp hd t h]; simp [parseLoop_parsedHeight]
  | none =>
    rw [parseTo_of_loop_ok bcp hd t h]
    simp only [SetParsedHeight_height, SetParsedHeight_err, parseLoop_parsedHeight]

lemma parseTo_indexed (bcp : BlockchainParser) (hd : HistoryDB) (t : Nat) (b : Block)
    (hb : b ∈ hd.indexed) : b ∈ (parseTo bcp hd t).historyDB.indexed := by
  cases h : (parseLoop bcp hd.parsedHeight
      (int64 (int64 t - hd.parsedHeight)).toNat 0 hd).err with
  | some e => rw [parseTo_of_loop_err bcp hd t h]; exact parseLoop_indexed _ _ _ _ _ b hb
  | none =>
    rw [parseTo_of_loop_ok bcp hd t h]
    simp only [SetParsedHeight_indexed]
    exact parseLoop_indexed _ _ _ _ _ b hb

lemma parseTo_notifications (bcp : BlockchainParser) (hd : HistoryDB) (t : Nat) :
    notifications (parseTo bcp hd t).calls = 0 := by
  cases h : (parseLoop bcp hd.parsedHeight
      (int64 (int64 t - hd.parsedHeight)).toNat 0 hd).err with
  | some e => rw [parseTo_of_loop_err bcp hd t h]; exact parseLoop_notifications _ _ _ _ _
  | none =>
    rw [parseTo_of_loop_ok bcp hd t h]
    simp [notifications_append, parseLoop_notifications, notifications]

/-! ## `parseTo`: derived facts -/

lemma loop_count {hd : HistoryDB} {w t : Nat} (hw : hd.parsedHeight = w)
    (hw' : w < 9223372036854775808) (ht : t < 9223372036854775808) :
    (int64 (int64 (t : Int) - hd.parsedHeight)).toNat = t - w := by
  rw [hw]; exact iterations_eq hw' ht

lemma parseLoop_head (bcp : BlockchainParser) (p i : Int) (n : Nat) (hd : HistoryDB) :
    (parseLoop bcp p (n + 1) i hd).calls.head? =
      some (Call.GetBlockInDepth (uint64 (int64 (p + i + 1)))) := by
  rcases parseLoop_cases bcp p i n hd with ⟨_, h⟩ | ⟨b, e, _, _, h⟩ | ⟨b, _, _, h⟩
  · rw [h]; rfl
  · rw [h]; rfl
  · rw [h]; rfl

/-- The loop of `parseTo` over a range of good heights `(w, w + k]`, followed by `m` more
iterations. -/
lemma parseTo_loop_good (bcp : BlockchainParser) (hd : HistoryDB) (w k m : Nat)
    (hw : hd.parsedHeight = w) (hb : w + k < 9223372036854775808)
    (hgood : ∀ h, w < h → h ≤ w + k → GoodAt bcp h) :
    ∃ cs hd', processedSeqs cs = List.range' (w + 1) k ∧ hd'.parsedHeight = (w : Int) ∧
      parseLoop bcp hd.parsedHeight (k + m) 0 hd =
        Outcome.prepend cs (parseLoop bcp (w : Int) m (k : Int) hd') := by
  obtain ⟨cs, hd', hcs, hph, hrec⟩ :=
    parseLoop_good bcp w k m 0 hd (by omega) (fun h h1 h2 => hgood h (by omega) (by omega))
  refine ⟨cs, hd', by simpa using hcs, by rw [hph, hw], ?_⟩
  rw [hw]
  simpa using hrec

/-- A catch-up over good heights: the loop succeeds and `SetParsedHeight` is reached. -/
lemma parseTo_good (bcp : BlockchainParser) (hd : HistoryDB) (w t : Nat)
    (hw : hd.parsedHeight = w) (hwt : w ≤ t) (ht : t < 9223372036854775808)
    (hgood : ∀ h, w < h → h ≤ t → GoodAt bcp h) :
    ∃ cs hd', processedSeqs cs = List.range' (w + 1) (t - w) ∧ hd'.parsedHeight = (w : Int) ∧
      parseTo bcp hd t =
        { historyDB := (HistoryDB.SetParsedHeight bcp hd' t).1
          calls := cs ++ [Call.SetParsedHeight t]
          err := bcp.persistErr t } := by
  obtain ⟨cs, hd', hcs, hph, hrec⟩ :=
    parseTo_loop_good bcp hd w (t - w) 0 hw (by omega)
      (fun h h1 h2 => hgood h h1 (by omega))
  have hloop : parseLoop bcp hd.parsedHeight
      (int64 (int64 (t : Int) - hd.parsedHeight)).toNat 0 hd =
        { historyDB := hd', calls := cs, err := none } := by
    rw [loop_count hw (by omega) ht]
    rw [Nat.add_zero] at hrec
    rw [hrec, parseLoop_zero]
    simp [Outcome.prepend]
  refine ⟨cs, hd', hcs, hph, ?_⟩
  rw [parseTo_of_loop_ok bcp hd t (by rw [hloop]), hloop, SetParsedHeight_err]

/-- A catch-up that meets, at height `h`, an absent block or a block that `ProcessBlock`
rejects, all heights below being good. -/
lemma parseTo_fails_at (bcp : BlockchainParser) (hd : HistoryDB) (w t h : Nat)
    (hw : hd.parsedHeight = w) (hwh : w < h) (hht : h ≤ t) (ht : t < 9223372036854775808)
    (hgood : ∀ h', w < h' → h' < h → GoodAt bcp h') :
    ∃ cs, processedSeqs cs = List.range' (w + 1) (h - 1 - w) ∧
      (bcp.bc.GetBlockInDepth h = none →
        (parseTo bcp hd t).err = some ("no block exist in depth:" ++ toString (h : Int)) ∧
        (parseTo bcp hd t).calls = cs ++ [Call.GetBlockInDepth h] ∧
        (parseTo bcp hd t).historyDB.parsedHeight = (w : Int)) ∧
      (∀ b e, bcp.bc.GetBlockInDepth h = some b → bcp.processErr b = some e →
        (parseTo bcp hd t).err = some e ∧
        (parseTo bcp hd t).calls = cs ++ [Call.GetBlockInDepth h, Call.ProcessBlock b] ∧
        (parseTo bcp hd t).historyDB.parsedHeight = (w : Int)) := by
  obtain ⟨cs, hd', hcs, hph, hrec⟩ :=
    parseTo_loop_good bcp hd w (h - 1 - w) (t - h + 1) hw (by omega)
      (fun h' h1 h2 => hgood h' h1 (by omega))
  have hcount : (int64 (int64 (t : Int) - hd.parsedHeight)).toNat = h - 1 - w + (t - h + 1) := by
    rw [loop_count hw (by omega) ht]; omega
  have hdep : uint64 (int64 ((w : Int) + ((h - 1 - w : Nat) : Int) + 1)) = h := by
    rw [depth_eq (by omega)]; omega
  have hval : int64 ((w : Int) + ((h - 1 - w : Nat) : Int) + 1) = (h : Int) := by
    rw [int64_eq_self (by omega) (by omega)]; omega
  refine ⟨cs, hcs, ?_, ?_⟩
  · intro hmiss
    rw [← hdep] at hmiss
    have hx := parseLoop_absent bcp (w : Int) ((h - 1 - w : Nat) : Int) (t - h) hd' hmiss
    rw [← hcount, hx, hdep, hval] at hrec
    have herr : (parseLoop bcp hd.parsedHeight
        (int64 (int64 (t : Int) - hd.parsedHeight)).toNat 0 hd).err =
        some ("no block exist in depth:" ++ toString (h : Int)) := by rw [hrec]; rfl
    refine ⟨?_, ?_, ?_⟩
    · rw [parseTo_of_loop_err bcp hd t herr]
    · rw [parseTo_of_loop_err bcp hd t herr, hrec]; rfl
    · rw [parseTo_of_loop_err bcp hd t herr, hrec]; exact hph
  · intro b e hg hp
    rw [← hdep] at hg
    have hx := parseLoop_failed bcp (w : Int) ((h - 1 - w : Nat) : Int) (t - h) hd' hg hp
    rw [← hcount, hx, hdep] at hrec
    have herr : (parseLoop bcp hd.parsedHeight
        (int64 (int64 (t : Int) - hd.parsedHeight)).toNat 0 hd).err = some e := by
      rw [hrec]; rfl
    refine ⟨?_, ?_, ?_⟩
    · rw [parseTo_of_loop_err bcp hd t herr]
    · rw [parseTo_of_loop_err bcp hd t herr, hrec]; rfl
    · rw [parseTo_of_loop_err bcp hd t herr, hrec]; exact hph

lemma parseTo_first_call (bcp : BlockchainParser) (hd : HistoryDB) (w t : Nat)
    (hw : hd.parsedHeight = w) (hwt : w < t) (ht : t < 9223372036854775808) :
    (parseTo bcp hd t).calls.head? = some (Call.GetBlockInDepth (w + 1)) := by
  have hcount : (int64 (int64 (t : Int) - hd.parsedHeight)).toNat = (t - w - 1) + 1 := by
    rw [loop_count hw (by omega) ht]; omega
  have hdep : uint64 (int64 (hd.parsedHeight + 0 + 1)) = w + 1 := by
    rw [hw]
    have h0 := depth_eq (w := w) (j := 0) (by omega)
    simpa using h0
  have hhead := parseLoop_head bcp hd.parsedHeight 0 (t - w - 1) hd
  rw [← hcount, hdep] at hhead
  have hne : (parseLoop bcp hd.parsedHeight
      (int64 (int64 (t : Int) - hd.parsedHeight)).toNat 0 hd).calls ≠ [] := by
    intro h; rw [h] at hhead; simp at hhead
  cases h : (parseLoop bcp hd.parsedHeight
      (int64 (int64 (t : Int) - hd.parsedHeight)).toNat 0 hd).err with
  | some e => rw [parseTo_of_loop_err bcp hd t h]; exact hhead
  | none =>
    rw [parseTo_of_loop_ok bcp hd t h]
    simp only []
    rw [List.head?_append_of_ne_nil _ hne]; exact hhead

/-- A target below the watermark: the loop does not run. -/
lemma parseTo_below (bcp : BlockchainParser) (hd : HistoryDB) (t : Nat)
    (h1 : (t : Int) < hd.parsedHeight) (h2 : hd.parsedHeight < 9223372036854775808) :
    parseTo bcp hd t =
      { historyDB := (HistoryDB.SetParsedHeight bcp hd t).1
        calls := [Call.SetParsedHeight t]
        err := bcp.persistErr t } := by
  have hcount : (int64 (int64 (t : Int) - hd.parsedHeight)).toNat = 0 := by
    rw [int64_eq_self (x := (t : Int)) (by omega) (by omega),
      int64_eq_self (by omega) (by omega)]
    omega
  have hloop : parseLoop bcp hd.parsedHeight
      (int64 (int64 (t : Int) - hd.parsedHeight)).toNat 0 hd =
        { historyDB := hd, calls := [], err := none } := by
    rw [hcount, parseLoop_zero]
  rw [parseTo_of_loop_ok bcp hd t (by rw [hloop]), hloop, SetParsedHeight_err]
  rfl

/-- A target at or above the watermark, below `2^63`, never lowers the watermark. -/
lemma parseTo_mono (bcp : BlockchainParser) (hd : HistoryDB) (t : Nat)
    (h1 : hd.parsedHeight ≤ (t : Int)) (h2 : t < 9223372036854775808) :
    hd.parsedHeight ≤ (parseTo bcp hd t).historyDB.parsedHeight := by
  rw [parseTo_parsedHeight]
  split
  · rw [int64_eq_self (by omega) (by omega)]; exact h1
  · exact le_refl _

lemma split_last {α : Type} (a : List α) (x y : α) (hy : y ∉ a) :
    ∀ (pre post : List α), a ++ [x] = pre ++ y :: post → pre = a ∧ y = x ∧ post = [] := by
  induction a with
  | nil =>
    intro pre post h
    cases pre with
    | nil => simp at h; exact ⟨rfl, h.1.symm, h.2⟩
    | cons p ps => simp at h
  | cons c a ih =>
    intro pre post h
    cases pre with
    | nil =>
      simp at h
      exact absurd (h.1 ▸ List.mem_cons_self c a) hy
    | cons p ps =>
      simp only [List.cons_append, List.cons.injEq] at h
      obtain ⟨h1, h2, h3⟩ := ih (fun hm => hy (List.mem_cons_of_mem _ hm)) ps post h.2
      exact ⟨by rw [h.1, h1], h2, h3⟩

/-- What a successful pass of the loop of `parseTo` has done, for heights below `2^63`. -/
lemma loop_ok_blocks (bcp : BlockchainParser) (hd : HistoryDB) (w t : Nat)
    (hw : hd.parsedHeight = w) (hw' : w < 9223372036854775808)
    (ht : t < 9223372036854775808)
    (hok : (parseLoop bcp hd.parsedHeight
      (int64 (int64 (t : Int) - hd.parsedHeight)).toNat 0 hd).err = none) :
    ∀ h : Nat, w < h → h ≤ t →
      ∃ b, bcp.bc.GetBlockInDepth h = some b ∧ bcp.processErr b = none ∧
        Call.ProcessBlock b ∈ (parseLoop bcp hd.parsedHeight
          (int64 (int64 (t : Int) - hd.parsedHeight)).toNat 0 hd).calls ∧
        b ∈ (parseLoop bcp hd.parsedHeight
          (int64 (int64 (t : Int) - hd.parsedHeight)).toNat 0 hd).historyDB.indexed := by
  intro h h1 h2
  have hcount := loop_count hw hw' ht
  obtain ⟨b, hg, hp, hc, hi⟩ :=
    parseLoop_ok_inv bcp hd.parsedHeight _ 0 hd (le_refl _) (by rw [hcount]; omega) hok
      (h - w - 1) (by rw [hcount]; omega)
  have harg : hd.parsedHeight + (0 + ((h - w - 1 : Nat) : Int)) + 1 = ((h : Nat) : Int) := by
    rw [hw]; omega
  rw [harg, int64_eq_self (by omega) (by omega), uint64_natCast (by omega)] at hg
  exact ⟨b, hg, hp, hc, hi⟩

/-! ## `Run`: unfolding -/

lemma afterParse_historyDB (s : RunState) (t : Nat) (r : Outcome) :
    (s.afterParse t r).historyDB = r.historyDB := by
  unfold RunState.afterParse; cases r.err <;> rfl

lemma afterParse_calls (s : RunState) (t : Nat) (r : Outcome) :
    (s.afterParse t r).calls = s.calls ++ r.calls := by
  unfold RunState.afterParse; cases r.err <;> rfl

lemma afterParse_parsed (s : RunState) (t : Nat) (r : Outcome) :
    (s.afterParse t r).parsed = s.parsed ++ [(t, r.err)] := by
  unfold RunState.afterParse; cases h : r.err <;> rfl

lemma afterParse_acked (s : RunState) (t : Nat) (r : Outcome) :
    (s.afterParse t r).acked = s.acked := by
  unfold RunState.afterParse; cases r.err <;> rfl

lemma afterParse_returned (s : RunState) (t : Nat) (r : Outcome) :
    (s.afterParse t r).returned = r.err.isSome := by
  unfold RunState.afterParse; cases r.err <;> rfl

lemma afterParse_qClosed (s : RunState) (t : Nat) (r : Outcome) :
    (s.afterParse t r).qClosed = (r.err.isSome || s.qClosed) := by
  unfold RunState.afterParse; cases r.err <;> rfl

lemma Run_nil (bcp : BlockchainParser) (hd : HistoryDB) :
    Run bcp hd [] = Run.start bcp hd := rfl

lemma Run_snoc (bcp : BlockchainParser) (hd : HistoryDB) (evs : List Event) (e : Event) :
    Run bcp hd (evs ++ [e]) = Run.step bcp (Run bcp hd evs) e := by
  unfold Run; rw [List.foldl_append]; rfl

lemma Run_append (bcp : BlockchainParser) (hd : HistoryDB) (evs more : List Event) :
    Run bcp hd (evs ++ more) = more.foldl (Run.step bcp) (Run bcp hd evs) := by
  unfold Run; rw [List.foldl_append]

lemma step_returned (bcp : BlockchainParser) (s : RunState) (e : Event)
    (h : s.returned = true) : Run.step bcp s e = s := by
  unfold Run.step; rw [if_pos h]

lemma step_closing (bcp : BlockchainParser) (s : RunState) (h : s.returned = false) :
    Run.step bcp s Event.closing = { s with acked := s.acked + 1, returned := true } := by
  unfold Run.step; rw [if_neg (by rw [h]; exact Bool.false_ne_true)]

lemma step_blk (bcp : BlockchainParser) (s : RunState) (b : Block) (h : s.returned = false) :
    Run.step bcp s (Event.blk b) =
      RunState.afterParse s b.Head.BkSeq (parseTo bcp s.historyDB b.Head.BkSeq) := by
  unfold Run.step; rw [if_neg (by rw [h]; exact Bool.false_ne_true)]

lemma fold_returned (bcp : BlockchainParser) (more : List Event) :
    ∀ s : RunState, s.returned = true → more.foldl (Run.step bcp) s = s := by
  induction more with
  | nil => intro s _; rfl
  | cons e es ih =>
    intro s h
    rw [List.foldl_cons, step_returned bcp s e h]
    exact ih s h

lemma Run_stable (bcp : BlockchainParser) (hd : HistoryDB) (evs more : List Event)
    (h : (Run bcp hd evs).returned = true) :
    Run bcp hd (evs ++ more) = Run bcp hd evs := by
  rw [Run_append]; exact fold_returned bcp more _ h

lemma start_notifications (bcp : BlockchainParser) (hd : HistoryDB) :
    notifications (Run.start bcp hd).calls = 0 := by
  unfold Run.start
  simp only [afterParse_calls, List.nil_append]
  exact parseTo_notifications _ _ _

lemma step_notifications (bcp : BlockchainParser) (s : RunState) (e : Event)
    (h : notifications s.calls = 0) : notifications (Run.step bcp s e).calls = 0 := by
  cases hr : s.returned with
  | true => rw [step_returned bcp s e hr]; exact h
  | false =>
    cases e with
    | closing => rw [step_closing bcp s hr]; exact h
    | blk b =>
      rw [step_blk bcp s b hr, afterParse_calls, notifications_append, h,
        parseTo_notifications]

lemma Run_notifications (bcp : BlockchainParser) (hd : HistoryDB) (events : List Event) :
    notifications (Run bcp hd events).calls = 0 := by
  induction events using List.reverseRecOn with
  | nil => exact start_notifications bcp hd
  | append_singleton evs e ih => rw [Run_snoc]; exact step_notifications bcp _ e ih

/-! ## `Run`: the invariant of the loop -/

lemma afterParse_inv (s : RunState) (t : Nat) (r : Outcome) (hs : RunInv s)
    (hr : s.returned = false) : RunInv (s.afterParse t r) := by
  obtain ⟨_, h2, h3, _, _, h6⟩ := hs
  obtain ⟨hack, hall⟩ := h6 hr
  have hq : s.qClosed = false := by
    cases hq : s.qClosed with
    | false => rfl
    | true => rw [(h3 hq).1] at hr; exact absurd hr (by decide)
  unfold RunInv
  rw [afterParse_parsed, afterParse_qClosed, afterParse_acked, afterParse_returned,
    List.dropLast_concat, hq, hack]
  refine ⟨hall, ?_, ?_, by omega, by omega, ?_⟩
  · constructor
    · intro h
      refine ⟨(t, r.err), by simp, ?_⟩
      cases he : r.err with
      | none => rw [he] at h; simp at h
      | some e => simp
    · rintro ⟨p, hp, hne⟩
      rw [List.mem_append] at hp
      rcases hp with hp | hp
      · exact absurd (hall p hp) hne
      · simp at hp
        rw [hp] at hne
        cases he : r.err with
        | none => rw [he] at hne; simp at hne
        | some e => simp
  · intro h
    refine ⟨?_, rfl⟩
    simpa using h
  · intro h
    refine ⟨rfl, ?_⟩
    intro p hp
    rw [List.mem_append] at hp
    rcases hp with hp | hp
    · exact hall p hp
    · simp at hp
      rw [hp]
      cases he : r.err with
      | none => rfl
      | some e => rw [he] at h; simp at h

lemma start_inv (bcp : BlockchainParser) (hd : HistoryDB) : RunInv (Run.start bcp hd) := by
  unfold Run.start
  apply afterParse_inv
  · unfold RunInv; simp
  · rfl

lemma step_inv (bcp : BlockchainParser) (s : RunState) (e : Event) (hs : RunInv s) :
    RunInv (Run.step bcp s e) := by
  cases hr : s.returned with
  | true => rw [step_returned bcp s e hr]; exact hs
  | false =>
    cases e with
    | blk b => rw [step_blk bcp s b hr]; exact afterParse_inv s _ _ hs hr
    | closing =>
      rw [step_closing bcp s hr]
      obtain ⟨h1, h2, h3, _, _, h6⟩ := hs
      obtain ⟨hack, hall⟩ := h6 hr
      have hq : s.qClosed = false := by
        cases hq : s.qClosed with
        | false => rfl
        | true => rw [(h3 hq).1] at hr; exact absurd hr (by decide)
      refine ⟨h1, h2, ?_, ?_, ?_, ?_⟩
      · intro h; rw [hq] at h; exact absurd h (by decide)
      · show s.acked + 1 ≤ 1; omega
      · intro _; exact ⟨rfl, hq⟩
      · intro h; exact Bool.noConfusion h

lemma Run_inv (bcp : BlockchainParser) (hd : HistoryDB) (events : List Event) :
    RunInv (Run bcp hd events) := by
  induction events using List.reverseRecOn with
  | nil => exact start_inv bcp hd
  | append_singleton evs e ih => rw [Run_snoc]; exact step_inv bcp _ e ih

/-- `Run` returns only by closing `q` or by acknowledging a stop request, and acknowledges
nothing as long as no stop request was received. -/
lemma Run_returned_cause (bcp : BlockchainParser) (hd : HistoryDB) (events : List Event) :
    ((Run bcp hd events).returned = true →
      (Run bcp hd events).qClosed = true ∨ (Run bcp hd events).acked = 1) ∧
    (Event.closing ∉ events → (Run bcp hd events).acked = 0) := by
  induction events using List.reverseRecOn with
  | nil =>
    rw [Run_nil]; unfold Run.start
    rw [afterParse_returned, afterParse_qClosed, afterParse_acked]
    refine ⟨fun h => Or.inl ?_, fun _ => rfl⟩
    rw [h]; rfl
  | append_singleton evs e ih =>
    rw [Run_snoc]
    cases hr : (Run bcp hd evs).returned with
    | true =>
      rw [step_returned bcp _ e hr]
      exact ⟨fun _ => ih.1 hr, fun h => ih.2 (fun hm => h (List.mem_append_left _ hm))⟩
    | false =>
      have hack : (Run bcp hd evs).acked = 0 := ((Run_inv bcp hd evs).2.2.2.2.2 hr).1
      cases e with
      | closing =>
        rw [step_closing bcp _ hr]
        refine ⟨fun _ => Or.inr ?_, fun h => absurd (by simp) h⟩
        show (Run bcp hd evs).acked + 1 = 1
        rw [hack]
      | blk b =>
        rw [step_blk bcp _ b hr, afterParse_returned, afterParse_qClosed, afterParse_acked]
        refine ⟨fun h => Or.inl ?_, fun _ => hack⟩
        rw [h]; rfl

/-- The `parseTo` calls of `Run` are for the head and then for the blocks received, in order. -/
lemma Run_targets (bcp : BlockchainParser) (hd : HistoryDB) (events : List Event) :
    ∃ blocks : List Block, blocks.map Event.blk <+: events ∧
      (Run bcp hd events).parsed.map Prod.fst =
        bcp.bc.Head.Head.BkSeq :: blocks.map (fun b => b.Head.BkSeq) ∧
      ((Run bcp hd events).returned = false → blocks.map Event.blk = events) := by
  induction events using List.reverseRecOn with
  | nil =>
    refine ⟨[], by simp, ?_, fun _ => rfl⟩
    rw [Run_nil]; unfold Run.start
    simp [afterParse_parsed]
  | append_singleton evs e ih =>
    obtain ⟨blocks, hpre, hmap, hall⟩ := ih
    rw [Run_snoc]
    cases hr : (Run bcp hd evs).returned with
    | true =>
      rw [step_returned bcp _ e hr]
      exact ⟨blocks, hpre.trans (List.prefix_append _ _), hmap,
        fun h => by rw [hr] at h; exact absurd h (by decide)⟩
    | false =>
      cases e with
      | closing =>
        rw [step_closing bcp _ hr]
        exact ⟨blocks, hpre.trans (List.prefix_append _ _), hmap,
          fun h => Bool.noConfusion h⟩
      | blk b =>
        rw [step_blk bcp _ b hr]
        refine ⟨blocks ++ [b], ?_, ?_, ?_⟩
        · rw [List.map_append, hall hr]; exact List.prefix_refl _
        · rw [afterParse_parsed, List.map_append, hmap]; simp
        · intro _; rw [List.map_append, hall hr]; rfl

/-! ## Catch-up over good heights: summary -/

lemma parseTo_catch_up (bcp : BlockchainParser) (hd : HistoryDB) (w t : Nat)
    (hw : hd.parsedHeight = w) (hwt : w ≤ t) (ht : t < 9223372036854775808)
    (hgood : ∀ h, w < h → h ≤ t → GoodAt bcp h) (hset : bcp.persistErr t = none) :
    (parseTo bcp hd t).err = none ∧
      processedSeqs (parseTo bcp hd t).calls = List.range' (w + 1) (t - w) ∧
      (parseTo bcp hd t).historyDB.parsedHeight = (t : Int) := by
  obtain ⟨cs, hd', hcs, _, heq⟩ := parseTo_good bcp hd w t hw hwt ht hgood
  rw [heq]
  refine ⟨hset, ?_, ?_⟩
  · show processedSeqs (cs ++ [Call.SetParsedHeight t]) = _
    rw [processedSeqs_append, hcs]; simp [processedSeqs]
  · show (HistoryDB.SetParsedHeight bcp hd' t).1.parsedHeight = _
    rw [SetParsedHeight_height, if_pos hset, int64_eq_self (by omega) (by omega)]

lemma chain'_range' (n : Nat) : ∀ s : Nat, List.Chain' (fun a b => b = a + 1) (List.range' s n) := by
  induction n with
  | zero => intro s; simp
  | succ n ih =>
    intro s
    rw [List.range'_succ, List.chain'_cons']
    refine ⟨?_, ih (s + 1)⟩
    intro y hy
    cases n with
    | zero => simp at hy
    | succ n => rw [List.range'_succ] at hy; simp at hy; exact hy.symm

/-- The loop of `Run` over blocks of non-decreasing heights, all good. -/
lemma fold_good (bcp : BlockchainParser) (w M : Nat) (hM : M < 9223372036854775808)
    (hgood : ∀ h, w < h → h ≤ M → GoodAt bcp h) (hset : ∀ h, bcp.persistErr h = none) :
    ∀ (blocks : List Block) (s : RunState) (c : Nat),
      s.returned = false → s.historyDB.parsedHeight = (c : Int) → w ≤ c →
      processedSeqs s.calls = List.range' (w + 1) (c - w) →
      List.Chain (fun a b => a ≤ b) c (blocks.map (fun b => b.Head.BkSeq)) →
      (∀ x ∈ c :: blocks.map (fun b => b.Head.BkSeq), x ≤ M) →
      ∃ c' : Nat, w ≤ c' ∧
        ((blocks.map Event.blk).foldl (Run.step bcp) s).historyDB.parsedHeight = (c' : Int) ∧
        processedSeqs ((blocks.map Event.blk).foldl (Run.step bcp) s).calls =
          List.range' (w + 1) (c' - w) ∧
        ((blocks.map Event.blk).foldl (Run.step bcp) s).returned = false ∧
        ((blocks.map Event.blk).foldl (Run.step bcp) s).qClosed = s.qClosed ∧
        c' = (c :: blocks.map (fun b => b.Head.BkSeq)).getLast (List.cons_ne_nil _ _) := by
  intro blocks
  induction blocks with
  | nil => intro s c hr hc hwc hseq _ _; exact ⟨c, hwc, hc, hseq, hr, rfl, rfl⟩
  | cons b rest ih =>
    intro s c hr hc hwc hseq hch hb
    rw [List.map_cons, List.chain_cons] at hch
    have hbM : b.Head.BkSeq ≤ M := hb _ (by simp)
    obtain ⟨he, hp, hh⟩ := parseTo_catch_up bcp s.historyDB c b.Head.BkSeq hc hch.1 (by omega)
      (fun h h1 h2 => hgood h (by omega) (by omega)) (hset _)
    have hstep := step_blk bcp s b hr
    obtain ⟨c', h1, h2, h3, h4, h5, h6⟩ :=
      ih (Run.step bcp s (Event.blk b)) b.Head.BkSeq
        (by rw [hstep, afterParse_returned, he]; rfl)
        (by rw [hstep, afterParse_historyDB, hh])
        (by omega)
        (by
          rw [hstep, afterParse_calls, processedSeqs_append, hseq, hp]
          have := List.range'_append (w + 1) (c - w) (b.Head.BkSeq - c) 1
          rw [show w + 1 + 1 * (c - w) = c + 1 by omega] at this
          rw [this]; congr 1; omega)
        hch.2
        (fun x hx => hb x (List.mem_cons_of_mem _ hx))
    refine ⟨c', h1, h2, h3, h4, ?_, ?_⟩
    · rw [List.map_cons, List.foldl_cons, h5, hstep, afterParse_qClosed, he]; rfl
    · rw [h6]; simp [List.getLast_cons]

/-! ## Claims about `parseTo` -/

/-- C1: a successful catch-up applies exactly the missing range, in order. With watermark
`w ≥ 0`, target `w ≤ t < 2^63`, a good block at every height in `(w, t]` and a succeeding
`SetParsedHeight t`, `parseTo t` returns `nil`, the heights passed to `ProcessBlock` are exactly
`w+1, ..., t` (none when `t = w`), and the watermark afterwards is `t`. -/
theorem parseTo_applies_missing_range (bcp : BlockchainParser) (hd : HistoryDB) (w t : Nat)
    (hw : hd.parsedHeight = w) (hwt : w ≤ t) (ht : t < 9223372036854775808)
    (hgood : ∀ h, w < h → h ≤ t → GoodAt bcp h) (hset : bcp.persistErr t = none) :
    (parseTo bcp hd t).err = none ∧
      processedSeqs (parseTo bcp hd t).calls = List.range' (w + 1) (t - w) ∧
      (t = w → processedSeqs (parseTo bcp hd t).calls = []) ∧
      (parseTo bcp hd t).historyDB.parsedHeight = (t : Int) := by
  obtain ⟨h1, h2, h3⟩ := parseTo_catch_up bcp hd w t hw hwt ht hgood hset
  refine ⟨h1, h2, ?_, h3⟩
  intro h; rw [h2, h]; simp

/-- Witness of C1 (Scenario A): watermark 0, target 3, blocks 1..3 present and applying. -/
theorem parseTo_applies_missing_range_witness :
    (parseTo (healthy (fullChain 3)) (dbAt 0) 3).err = none ∧
      processedSeqs (parseTo (healthy (fullChain 3)) (dbAt 0) 3).calls =
        List.range' (0 + 1) (3 - 0) ∧
      (3 = 0 → processedSeqs (parseTo (healthy (fullChain 3)) (dbAt 0) 3).calls = []) ∧
      (parseTo (healthy (fullChain 3)) (dbAt 0) 3).historyDB.parsedHeight = ((3 : Nat) : Int) :=
  parseTo_applies_missing_range (healthy (fullChain 3)) (dbAt 0) 0 3 rfl (by decide)
    (by decide) (fun h _ _ => ⟨_, rfl, rfl, rfl⟩) rfl

/-- C2 as stated fails: with watermark 0 and target `2^63`, `int64(bcHeight)` is negative, the
loop does not run, and `SetParsedHeight(2^63)` is called without any `ProcessBlock` call. -/
theorem commit_then_advance_fails_at_2_pow_63 :
    ¬ CommitThenAdvance (healthy (fullChain 0)) (dbAt 0) 9223372036854775808 := by
  intro H
  obtain ⟨b, _, _, hb⟩ :=
    H [] [] 9223372036854775808 (by decide) (by decide) 1 (by decide) (by decide)
  simp at hb

/-- C2, amended: for a watermark `0 ≤ w` and a target `t < 2^63`, whenever `parseTo t` calls
`SetParsedHeight v` with `v > w`, `ProcessBlock` has already succeeded, earlier in the same
call, for the block at every height in `(w, v]`; and "every block with height at most the
watermark has been applied" is preserved by `parseTo`. -/
theorem parseTo_commit_then_advance (bcp : BlockchainParser) (hd : HistoryDB) (t : Nat)
    (hw0 : 0 ≤ hd.parsedHeight) (hw1 : hd.parsedHeight < 9223372036854775808)
    (ht : t < 9223372036854775808) :
    CommitThenAdvance bcp hd t ∧
      (Applied bcp hd → Applied bcp (parseTo bcp hd t).historyDB) := by
  obtain ⟨w, hw⟩ := Int.eq_ofNat_of_zero_le hw0
  have hw' : w < 9223372036854775808 := by omega
  constructor
  · intro pre post v hcalls hv h hh1 hh2
    cases hl : (parseLoop bcp hd.parsedHeight
        (int64 (int64 (t : Int) - hd.parsedHeight)).toNat 0 hd).err with
    | some e =>
      rw [parseTo_of_loop_err bcp hd t hl] at hcalls
      exfalso
      have hc : (parseLoop bcp hd.parsedHeight
          (int64 (int64 (t : Int) - hd.parsedHeight)).toNat 0 hd).calls =
            pre ++ Call.SetParsedHeight v :: post := hcalls
      have hno := parseLoop_no_set bcp hd.parsedHeight
        (int64 (int64 (t : Int) - hd.parsedHeight)).toNat 0 hd v
      rw [hc] at hno
      exact hno (by simp)
    | none =>
      rw [parseTo_of_loop_ok bcp hd t hl] at hcalls
      obtain ⟨hpre, hvt, _⟩ :=
        split_last (parseLoop bcp hd.parsedHeight
            (int64 (int64 (t : Int) - hd.parsedHeight)).toNat 0 hd).calls
          (Call.SetParsedHeight t) (Call.SetParsedHeight v)
          (parseLoop_no_set bcp hd.parsedHeight _ 0 hd v) pre post hcalls
      have hvt' : v = t := by injection hvt
      obtain ⟨b, hg, hp, hc, _⟩ :=
        loop_ok_blocks bcp hd w t hw hw' ht hl h (by omega) (by omega)
      exact ⟨b, hg, hp, by rw [hpre]; exact hc⟩
  · intro hA h hh
    rw [parseTo_parsedHeight] at hh
    cases hl : (parseLoop bcp hd.parsedHeight
        (int64 (int64 (t : Int) - hd.parsedHeight)).toNat 0 hd).err with
    | some e =>
      have herr : (parseTo bcp hd t).err = some e := by rw [parseTo_of_loop_err bcp hd t hl]
      rw [herr] at hh
      obtain ⟨b, hg, hb⟩ := hA h (by simpa using hh)
      exact ⟨b, hg, parseTo_indexed bcp hd t b hb⟩
    | none =>
      by_cases hle : (h : Int) ≤ hd.parsedHeight
      · obtain ⟨b, hg, hb⟩ := hA h hle
        exact ⟨b, hg, parseTo_indexed bcp hd t b hb⟩
      · have hht : h ≤ t := by
          split at hh
          · rw [int64_eq_self (by omega) (by omega)] at hh; omega
          · exact absurd hh hle
        obtain ⟨b, hg, _, _, hi⟩ :=
          loop_ok_blocks bcp hd w t hw hw' ht hl h (by omega) hht
        refine ⟨b, hg, ?_⟩
        rw [parseTo_of_loop_ok bcp hd t hl]
        show b ∈ (HistoryDB.SetParsedHeight bcp _ t).1.indexed
        rw [SetParsedHeight_indexed]; exact hi

/-- Witness of C2, amended: watermark 0 (block 0 applied), target 3. -/
theorem parseTo_commit_then_advance_witness :
    CommitThenAdvance (healthy (fullChain 3)) { parsedHeight := 0, indexed := [⟨⟨0⟩, 0⟩] } 3 ∧
      (Applied (healthy (fullChain 3)) { parsedHeight := 0, indexed := [⟨⟨0⟩, 0⟩] } →
        Applied (healthy (fullChain 3))
          (parseTo (healthy (fullChain 3))
            { parsedHeight := 0, indexed := [⟨⟨0⟩, 0⟩] } 3).historyDB) :=
  parseTo_commit_then_advance (healthy (fullChain 3))
    { parsedHeight := 0, indexed := [⟨⟨0⟩, 0⟩] } 3 (by decide) (by decide) (by decide)

/-- C5 as stated fails (Scenario C): watermark 0, target 2, block 2 missing. `parseTo` applies
block 1 and returns the gap error, but the watermark is still 0, not 1. -/
theorem failed_catch_up_watermark_not_advanced :
    ¬ ((parseTo (healthy (chainMissing 2 2)) (dbAt 0) 2).err ≠ none ∧
        (parseTo (healthy (chainMissing 2 2)) (dbAt 0) 2).historyDB.parsedHeight = 2 - 1) := by
  decide

/-- C5, amended: when `parseTo t` fails at a height `h` in `(w, t]` (block absent, or
`ProcessBlock` failing), the blocks `w+1..h-1` being good, it returns an error and the
watermark is unchanged, equal to `w`: `SetParsedHeight` is only reached after the whole range.
A later `parseTo t`, by any parser, on the resulting database starts again at height `w+1`. -/
theorem parseTo_failure_keeps_watermark (bcp : BlockchainParser) (hd : HistoryDB) (w t h : Nat)
    (hw : hd.parsedHeight = w) (hwh : w < h) (hht : h ≤ t) (ht : t < 9223372036854775808)
    (hgood : ∀ h', w < h' → h' < h → GoodAt bcp h')
    (hfail : bcp.bc.GetBlockInDepth h = none ∨
      ∃ b e, bcp.bc.GetBlockInDepth h = some b ∧ bcp.processErr b = some e) :
    (parseTo bcp hd t).err ≠ none ∧
      (parseTo bcp hd t).historyDB.parsedHeight = (w : Int) ∧
      ∀ bcp' : BlockchainParser,
        (parseTo bcp' (parseTo bcp hd t).historyDB t).calls.head? =
          some (Call.GetBlockInDepth (w + 1)) := by
  obtain ⟨cs, _, hA, hB⟩ := parseTo_fails_at bcp hd w t h hw hwh hht ht hgood
  have key : (parseTo bcp hd t).err ≠ none ∧
      (parseTo bcp hd t).historyDB.parsedHeight = (w : Int) := by
    rcases hfail with hmiss | ⟨b, e, hg, hp⟩
    · obtain ⟨h1, _, h3⟩ := hA hmiss
      exact ⟨by rw [h1]; simp, h3⟩
    · obtain ⟨h1, _, h3⟩ := hB b e hg hp
      exact ⟨by rw [h1]; simp, h3⟩
  exact ⟨key.1, key.2, fun bcp' => parseTo_first_call bcp' _ w t key.2 (by omega) ht⟩

/-- Witness of C5, amended (Scenario D): `ProcessBlock` fails for height 4, watermark 3. -/
theorem parseTo_failure_keeps_watermark_witness :
    (parseTo (failingAt 4 4) (dbAt 3) 4).err ≠ none ∧
      (parseTo (failingAt 4 4) (dbAt 3) 4).historyDB.parsedHeight = ((3 : Nat) : Int) ∧
      ∀ bcp' : BlockchainParser,
        (parseTo bcp' (parseTo (failingAt 4 4) (dbAt 3) 4).historyDB 4).calls.head? =
          some (Call.GetBlockInDepth (3 + 1)) :=
  parseTo_failure_keeps_watermark (failingAt 4 4) (dbAt 3) 3 4 4 rfl (by decide) (by decide)
    (by decide) (fun h' h1 h2 => absurd h2 (by omega))
    (Or.inr ⟨⟨⟨4⟩, 0⟩, "apply failed", rfl, rfl⟩)

/-- C6: the gap error. With watermark `w ≥ 0`, target `w < t < 2^63`, and `h` the smallest
height in `(w, t]` without a block, the blocks below `h` being good, `parseTo t` returns the
error "no block exist in depth:h", having called `ProcessBlock` exactly for `w+1..h-1` and for
no height `≥ h`. -/
theorem parseTo_gap_error (bcp : BlockchainParser) (hd : HistoryDB) (w t h : Nat)
    (hw : hd.parsedHeight = w) (hwh : w < h) (hht : h ≤ t) (ht : t < 9223372036854775808)
    (hmiss : bcp.bc.GetBlockInDepth h = none)
    (hgood : ∀ h', w < h' → h' < h → GoodAt bcp h') :
    (parseTo bcp hd t).err = some ("no block exist in depth:" ++ toString h) ∧
      processedSeqs (parseTo bcp hd t).calls = List.range' (w + 1) (h - 1 - w) ∧
      ∀ x ∈ processedSeqs (parseTo bcp hd t).calls, x < h := by
  obtain ⟨cs, hcs, hA, _⟩ := parseTo_fails_at bcp hd w t h hw hwh hht ht hgood
  obtain ⟨h1, h2, _⟩ := hA hmiss
  have hseq : processedSeqs (parseTo bcp hd t).calls = List.range' (w + 1) (h - 1 - w) := by
    rw [h2, processedSeqs_append, hcs]; simp [processedSeqs]
  refine ⟨h1, hseq, ?_⟩
  intro x hx
  rw [hseq, List.mem_range'_1] at hx
  omega

/-- Witness of C6 (Scenario C): watermark 0, target 2, block 2 missing. -/
theorem parseTo_gap_error_witness :
    (parseTo (healthy (chainMissing 2 2)) (dbAt 0) 2).err =
        some ("no block exist in depth:" ++ toString 2) ∧
      processedSeqs (parseTo (healthy (chainMissing 2 2)) (dbAt 0) 2).calls =
        List.range' (0 + 1) (2 - 1 - 0) ∧
      ∀ x ∈ processedSeqs (parseTo (healthy (chainMissing 2 2)) (dbAt 0) 2).calls, x < 2 :=
  parseTo_gap_error (healthy (chainMissing 2 2)) (dbAt 0) 0 2 2 rfl (by decide) (by decide)
    (by decide) rfl
    (fun h' h1 h2 => ⟨⟨⟨h'⟩, 0⟩, by
      show (if h' < 2 then some _ else none) = some _
      rw [if_pos h2], rfl, rfl⟩)

/-- C7 fails on the code (Scenario A, parser built with `ParseNotifier 7`): the catch-up of
`Run` from watermark 0 to head 3 succeeds, applies blocks 1, 2, 3 and sets the watermark to 3,
but the callback is invoked zero times. -/
theorem notifier_never_invoked :
    (notified (fullChain 3)).parsedFunc = some 7 ∧
      (parseTo (notified (fullChain 3)) (dbAt 0) 3).err = none ∧
      (Run (notified (fullChain 3)) (dbAt 0) []).historyDB.parsedHeight = 3 ∧
      processedSeqs (Run (notified (fullChain 3)) (dbAt 0) []).calls = [1, 2, 3] ∧
      notifications (Run (notified (fullChain 3)) (dbAt 0) []).calls = 0 := by
  decide

/-- C8: dropped or duplicated notifications are harmless. With `w ≤ t1 ≤ t2 < 2^63`, good
blocks in `(w, t2]` and succeeding `SetParsedHeight`, `parseTo t1` followed by `parseTo t2`
passes the same heights to `ProcessBlock` and leaves the same watermark as `parseTo t2`
alone; when `t1 = t2` the second call applies no block and leaves the watermark at `t2`. -/
theorem parseTo_twice (bcp : BlockchainParser) (hd : HistoryDB) (w t1 t2 : Nat)
    (hw : hd.parsedHeight = w) (h1 : w ≤ t1) (h2 : t1 ≤ t2) (ht : t2 < 9223372036854775808)
    (hgood : ∀ h, w < h → h ≤ t2 → GoodAt bcp h)
    (hset1 : bcp.persistErr t1 = none) (hset2 : bcp.persistErr t2 = none) :
    processedSeqs ((parseTo bcp hd t1).calls ++
        (parseTo bcp (parseTo bcp hd t1).historyDB t2).calls) =
        processedSeqs (parseTo bcp hd t2).calls ∧
      (parseTo bcp (parseTo bcp hd t1).historyDB t2).historyDB.parsedHeight =
        (parseTo bcp hd t2).historyDB.parsedHeight ∧
      (parseTo bcp (parseTo bcp hd t1).historyDB t2).err = none ∧
      (parseTo bcp hd t2).err = none ∧
      (t1 = t2 → processedSeqs (parseTo bcp (parseTo bcp hd t1).historyDB t2).calls = [] ∧
        (parseTo bcp (parseTo bcp hd t1).historyDB t2).historyDB.parsedHeight = (t2 : Int)) := by
  obtain ⟨_, a2, a3⟩ := parseTo_catch_up bcp hd w t1 hw h1 (by omega)
    (fun h x y => hgood h x (by omega)) hset1
  obtain ⟨b1, b2, b3⟩ := parseTo_catch_up bcp (parseTo bcp hd t1).historyDB t1 t2 a3 h2 ht
    (fun h x y => hgood h (by omega) y) hset2
  obtain ⟨c1, c2, c3⟩ := parseTo_catch_up bcp hd w t2 hw (by omega) ht hgood hset2
  refine ⟨?_, by rw [b3, c3], b1, c1, ?_⟩
  · rw [processedSeqs_append, a2, b2, c2]
    have := List.range'_append (w + 1) (t1 - w) (t2 - t1) 1
    rw [show w + 1 + 1 * (t1 - w) = t1 + 1 by omega] at this
    rw [this]; congr 1; omega
  · intro h; rw [b2, b3, h]; simp

/-- Witness of C8: watermark 0, notifications for heights 2 and 3. -/
theorem parseTo_twice_witness :
    processedSeqs ((parseTo (healthy (fullChain 3)) (dbAt 0) 2).calls ++
        (parseTo (healthy (fullChain 3))
          (parseTo (healthy (fullChain 3)) (dbAt 0) 2).historyDB 3).calls) =
        processedSeqs (parseTo (healthy (fullChain 3)) (dbAt 0) 3).calls ∧
      (parseTo (healthy (fullChain 3))
          (parseTo (healthy (fullChain 3)) (dbAt 0) 2).historyDB 3).historyDB.parsedHeight =
        (parseTo (healthy (fullChain 3)) (dbAt 0) 3).historyDB.parsedHeight ∧
      (parseTo (healthy (fullChain 3))
          (parseTo (healthy (fullChain 3)) (dbAt 0) 2).historyDB 3).err = none ∧
      (parseTo (healthy (fullChain 3)) (dbAt 0) 3).err = none ∧
      (2 = 3 → processedSeqs (parseTo (healthy (fullChain 3))
          (parseTo (healthy (fullChain 3)) (dbAt 0) 2).historyDB 3).calls = [] ∧
        (parseTo (healthy (fullChain 3))
          (parseTo (healthy (fullChain 3)) (dbAt 0) 2).historyDB 3).historyDB.parsedHeight =
            ((3 : Nat) : Int)) :=
  parseTo_twice (healthy (fullChain 3)) (dbAt 0) 0 2 3 rfl (by decide) (by decide) (by decide)
    (fun h _ _ => ⟨_, rfl, rfl, rfl⟩) rfl rfl

/-- C9 as stated fails: with watermark 5 and target 3, `parseTo` returns `nil`. -/
theorem target_below_watermark_not_reported :
    ¬ ((parseTo (healthy (fullChain 5)) (dbAt 5) 3).err ≠ none) := by
  decide

/-- C9, amended: for a target `t` below the watermark, `parseTo t` fetches and applies no
block; its only call is `SetParsedHeight t`, whose result it returns. It returns a non-nil
error exactly when `SetParsedHeight t` fails. -/
theorem parseTo_below_watermark (bcp : BlockchainParser) (hd : HistoryDB) (t : Nat)
    (h1 : (t : Int) < hd.parsedHeight) (h2 : hd.parsedHeight < 9223372036854775808) :
    (parseTo bcp hd t).calls = [Call.SetParsedHeight t] ∧
      (parseTo bcp hd t).err = bcp.persistErr t ∧
      ((parseTo bcp hd t).err ≠ none ↔ bcp.persistErr t ≠ none) := by
  rw [parseTo_below bcp hd t h1 h2]
  exact ⟨rfl, rfl, Iff.rfl⟩

/-- Witness of C9, amended: watermark 5, target 3. -/
theorem parseTo_below_watermark_witness :
    (parseTo (healthy (fullChain 5)) (dbAt 5) 3).calls = [Call.SetParsedHeight 3] ∧
      (parseTo (healthy (fullChain 5)) (dbAt 5) 3).err =
        (healthy (fullChain 5)).persistErr 3 ∧
      ((parseTo (healthy (fullChain 5)) (dbAt 5) 3).err ≠ none ↔
        (healthy (fullChain 5)).persistErr 3 ≠ none) :=
  parseTo_below_watermark (healthy (fullChain 5)) (dbAt 5) 3 (by decide) (by decide)

/-! ## Claims about `Run` -/

/-- C3 as stated fails. First: with watermark 5 and head 5, a dequeued block of height 3 makes
`parseTo 3` lower the watermark from 5 to 3. Second: with watermark 0 and a head of height
`2^63`, the catch-up stores `2^63`, which `ParsedHeight()` reads back as a negative `int64`. -/
theorem watermark_can_decrease :
    ¬ ((Run (healthy (fullChain 5)) (dbAt 5) []).historyDB.parsedHeight ≤
        (Run (healthy (fullChain 5)) (dbAt 5)
          ([] ++ [Event.blk ⟨⟨3⟩, 0⟩])).historyDB.parsedHeight) ∧
      ¬ ((dbAt 0).parsedHeight ≤
        (Run (healthy (fullChain 9223372036854775808)) (dbAt 0) []).historyDB.parsedHeight) := by
  decide

/-- C3, amended: the watermark never decreases over a `parseTo` call of `Run` whose target is
at least the watermark at the time of the call and below `2^63`. This holds, each on its own
condition, for the initial call with the head's `BkSeq` and for the call made for any further
event received, whatever happened in the calls before it. -/
theorem Run_watermark_monotone (bcp : BlockchainParser) (hd : HistoryDB)
    (evs : List Event) (e : Event) :
    (hd.parsedHeight ≤ (bcp.bc.Head.Head.BkSeq : Int) ∧
        bcp.bc.Head.Head.BkSeq < 9223372036854775808 →
      hd.parsedHeight ≤ (Run bcp hd []).historyDB.parsedHeight) ∧
    ((∀ b, e = Event.blk b →
        (Run bcp hd evs).historyDB.parsedHeight ≤ (b.Head.BkSeq : Int) ∧
          b.Head.BkSeq < 9223372036854775808) →
      (Run bcp hd evs).historyDB.parsedHeight ≤
        (Run bcp hd (evs ++ [e])).historyDB.parsedHeight) := by
  constructor
  · intro hhead
    rw [Run_nil]; unfold Run.start
    rw [afterParse_historyDB]
    exact parseTo_mono bcp hd _ hhead.1 hhead.2
  · intro hev
    rw [Run_snoc]
    cases hr : (Run bcp hd evs).returned with
    | true => rw [step_returned bcp _ e hr]
    | false =>
      cases e with
      | closing => rw [step_closing bcp _ hr]
      | blk b =>
        rw [step_blk bcp _ b hr, afterParse_historyDB]
        exact parseTo_mono bcp _ _ (hev b rfl).1 (hev b rfl).2

/-- Witness of C3, amended. Initial call: watermark 0, head 2. Later call: watermark 5 and
head 3 (so the initial call is outside the condition and leaves the watermark at 3), then a
block of height 4, whose call is inside the condition. -/
theorem Run_watermark_monotone_witness :
    (dbAt 0).parsedHeight ≤ (Run (healthy (fullChain 2)) (dbAt 0) []).historyDB.parsedHeight ∧
      (Run (healthy (fullChain 3)) (dbAt 5) []).historyDB.parsedHeight ≤
        (Run (healthy (fullChain 3)) (dbAt 5)
          ([] ++ [Event.blk ⟨⟨4⟩, 0⟩])).historyDB.parsedHeight :=
  ⟨(Run_watermark_monotone (healthy (fullChain 2)) (dbAt 0) [] Event.closing).1 (by decide),
    (Run_watermark_monotone (healthy (fullChain 3)) (dbAt 5) [] (Event.blk ⟨⟨4⟩, 0⟩)).2
      (fun b hb => by
        have hb' : b = ⟨⟨4⟩, 0⟩ := by injection hb with h; exact h.symm
        subst hb'
        decide)⟩

/-- C4 as stated fails. First: with watermark 0 and head 2, the notifications of heights 1 and
then 2 make `Run` apply 1, 2 and then 2 again. Second: with watermark 0 and head 1, the
notifications of heights `2^63 + 1` and `2^63 + 2` make `Run` apply 1 and then `2^63 + 2`. -/
theorem application_order_can_break :
    ¬ List.Chain' (fun a b => b = a + 1)
        (processedSeqs (Run (healthy (fullChain 2)) (dbAt 0)
          [Event.blk ⟨⟨1⟩, 0⟩, Event.blk ⟨⟨2⟩, 0⟩]).calls) ∧
      ¬ List.Chain' (fun a b => b = a + 1)
        (processedSeqs (Run (healthy (fullChain 1)) (dbAt 0)
          [Event.blk ⟨⟨9223372036854775809⟩, 0⟩, Event.blk ⟨⟨9223372036854775810⟩, 0⟩]).calls) := by
  constructor
  · rw [show processedSeqs (Run (healthy (fullChain 2)) (dbAt 0)
      [Event.blk ⟨⟨1⟩, 0⟩, Event.blk ⟨⟨2⟩, 0⟩]).calls = [1, 2, 2] by decide]
    simp
  · rw [show processedSeqs (Run (healthy (fullChain 1)) (dbAt 0)
      [Event.blk ⟨⟨9223372036854775809⟩, 0⟩, Event.blk ⟨⟨9223372036854775810⟩, 0⟩]).calls =
        [1, 9223372036854775810] by decide]
    simp

/-- C4, amended: for a watermark `w ≥ 0`, a head height `≥ w` and block notifications whose
heights are non-decreasing from the head on (duplicates allowed) and at most `M < 2^63`, with
good blocks in `(w, M]` and `SetParsedHeight` succeeding, the heights passed to `ProcessBlock`
over the whole run increase by one at each step: they are exactly `w+1, ...,` up to the last
height notified, which is the final watermark; `Run` neither closes `q` nor returns. -/
theorem Run_gapless (bcp : BlockchainParser) (hd : HistoryDB) (w M : Nat) (blocks : List Block)
    (hw : hd.parsedHeight = w) (hM : M < 9223372036854775808)
    (hsorted : List.Chain (fun a b => a ≤ b) w
      (bcp.bc.Head.Head.BkSeq :: blocks.map (fun b => b.Head.BkSeq)))
    (hbound : ∀ x ∈ bcp.bc.Head.Head.BkSeq :: blocks.map (fun b => b.Head.BkSeq), x ≤ M)
    (hgood : ∀ h, w < h → h ≤ M → GoodAt bcp h) (hset : ∀ h, bcp.persistErr h = none) :
    List.Chain' (fun a b => b = a + 1)
        (processedSeqs (Run bcp hd (blocks.map Event.blk)).calls) ∧
      processedSeqs (Run bcp hd (blocks.map Event.blk)).calls =
        List.range' (w + 1)
          ((bcp.bc.Head.Head.BkSeq :: blocks.map (fun b => b.Head.BkSeq)).getLast
            (List.cons_ne_nil _ _) - w) ∧
      (Run bcp hd (blocks.map Event.blk)).historyDB.parsedHeight =
        (((bcp.bc.Head.Head.BkSeq :: blocks.map (fun b => b.Head.BkSeq)).getLast
            (List.cons_ne_nil _ _) : Nat) : Int) ∧
      (Run bcp hd (blocks.map Event.blk)).qClosed = false ∧
      (Run bcp hd (blocks.map Event.blk)).returned = false := by
  rw [List.chain_cons] at hsorted
  have hheadM : bcp.bc.Head.Head.BkSeq ≤ M := hbound _ (by simp)
  obtain ⟨he, hp, hh⟩ := parseTo_catch_up bcp hd w bcp.bc.Head.Head.BkSeq hw hsorted.1
    (by omega) (fun h h1 h2 => hgood h h1 (by omega)) (hset _)
  obtain ⟨c', _, h2, h3, h4, h5, h6⟩ :=
    fold_good bcp w M hM hgood hset blocks (Run.start bcp hd) bcp.bc.Head.Head.BkSeq
      (by unfold Run.start; rw [afterParse_returned, he]; rfl)
      (by unfold Run.start; rw [afterParse_historyDB, hh])
      hsorted.1
      (by unfold Run.start; rw [afterParse_calls, List.nil_append, hp])
      hsorted.2 hbound
  have hq : (Run.start bcp hd).qClosed = false := by
    unfold Run.start; rw [afterParse_qClosed, he]; rfl
  have hseq : processedSeqs (Run bcp hd (blocks.map Event.blk)).calls =
      List.range' (w + 1) (c' - w) := h3
  refine ⟨?_, ?_, ?_, ?_, h4⟩
  · rw [hseq]; exact chain'_range' _ _
  · rw [hseq, h6]
  · rw [← h6]; exact h2
  · show ((blocks.map Event.blk).foldl (Run.step bcp) (Run.start bcp hd)).qClosed = false
    rw [h5, hq]

/-- Witness of C4, amended: watermark 0, head 2, notifications of heights 2, 3 and 3. -/
theorem Run_gapless_witness :
    List.Chain' (fun a b => b = a + 1)
        (processedSeqs (Run (healthy (fullChain 2)) (dbAt 0)
          ([⟨⟨2⟩, 0⟩, ⟨⟨3⟩, 0⟩, ⟨⟨3⟩, 0⟩].map Event.blk)).calls) ∧
      processedSeqs (Run (healthy (fullChain 2)) (dbAt 0)
          ([⟨⟨2⟩, 0⟩, ⟨⟨3⟩, 0⟩, ⟨⟨3⟩, 0⟩].map Event.blk)).calls =
        List.range' (0 + 1)
          (((healthy (fullChain 2)).bc.Head.Head.BkSeq ::
            ([⟨⟨2⟩, 0⟩, ⟨⟨3⟩, 0⟩, ⟨⟨3⟩, 0⟩] : List Block).map (fun b => b.Head.BkSeq)).getLast
            (List.cons_ne_nil _ _) - 0) ∧
      (Run (healthy (fullChain 2)) (dbAt 0)
          ([⟨⟨2⟩, 0⟩, ⟨⟨3⟩, 0⟩, ⟨⟨3⟩, 0⟩].map Event.blk)).historyDB.parsedHeight =
        ((((healthy (fullChain 2)).bc.Head.Head.BkSeq ::
            ([⟨⟨2⟩, 0⟩, ⟨⟨3⟩, 0⟩, ⟨⟨3⟩, 0⟩] : List Block).map (fun b => b.Head.BkSeq)).getLast
            (List.cons_ne_nil _ _) : Nat) : Int) ∧
      (Run (healthy (fullChain 2)) (dbAt 0)
          ([⟨⟨2⟩, 0⟩, ⟨⟨3⟩, 0⟩, ⟨⟨3⟩, 0⟩].map Event.blk)).qClosed = false ∧
      (Run (healthy (fullChain 2)) (dbAt 0)
          ([⟨⟨2⟩, 0⟩, ⟨⟨3⟩, 0⟩, ⟨⟨3⟩, 0⟩].map Event.blk)).returned = false :=
  Run_gapless (healthy (fullChain 2)) (dbAt 0) 0 3 [⟨⟨2⟩, 0⟩, ⟨⟨3⟩, 0⟩, ⟨⟨3⟩, 0⟩] rfl
    (by decide) (by simp [healthy, fullChain, NewBlockchainParser])
    (by simp [healthy, fullChain, NewBlockchainParser])
    (fun h _ _ => ⟨_, rfl, rfl, rfl⟩) (fun _ => rfl)

/-- C10: the fail-fast run loop. For every parser, database and sequence of events:

* `Run` first calls `parseTo` with the head's `BkSeq`, and continues into the loop exactly when
  that call succeeds;
* as long as it has not returned, `Run` calls `parseTo` with the `BkSeq` of every block
  received, in order, and continues exactly when the call succeeds;
* `Run` is still waiting exactly when no `parseTo` call failed and no stop request was
  received; it returns only by closing `q` or by acknowledging a stop request;
* `q` is closed exactly when one of the `parseTo` calls returned an error; that call is the
  last one, and nothing is called after it (no retry), whatever is still queued;
* the stop request, when taken, is acknowledged once and `Run` returns with `q` open, the
  database and the call log as they were; blocks still queued are not processed. -/
theorem Run_fail_fast (bcp : BlockchainParser) (hd : HistoryDB) (events : List Event) :
    (∃ blocks : List Block, blocks.map Event.blk <+: events ∧
      (Run bcp hd events).parsed.map Prod.fst =
        bcp.bc.Head.Head.BkSeq :: blocks.map (fun b => b.Head.BkSeq) ∧
      ((Run bcp hd events).returned = false → blocks.map Event.blk = events)) ∧
    ((Run bcp hd events).qClosed = true ↔ ∃ p ∈ (Run bcp hd events).parsed, p.2 ≠ none) ∧
    (∀ p ∈ (Run bcp hd events).parsed.dropLast, p.2 = none) ∧
    ((Run bcp hd events).qClosed = true →
      (Run bcp hd events).returned = true ∧ (Run bcp hd events).acked = 0) ∧
    ((Run bcp hd events).returned = true →
      ∀ more, Run bcp hd (events ++ more) = Run bcp hd events) ∧
    (Run bcp hd events).acked ≤ 1 ∧
    ((Run bcp hd events).acked = 1 →
      (Run bcp hd events).returned = true ∧ (Run bcp hd events).qClosed = false) ∧
    ((parseTo bcp hd bcp.bc.Head.Head.BkSeq).err ≠ none →
      (Run bcp hd events).qClosed = true ∧ (Run bcp hd events).returned = true ∧
      (Run bcp hd events).calls = (parseTo bcp hd bcp.bc.Head.Head.BkSeq).calls) ∧
    (∀ evs b rest, events = evs ++ Event.blk b :: rest →
      (Run bcp hd evs).returned = false →
      (parseTo bcp (Run bcp hd evs).historyDB b.Head.BkSeq).err ≠ none →
      (Run bcp hd events).qClosed = true ∧ (Run bcp hd events).returned = true ∧
      (Run bcp hd events).calls =
        (Run bcp hd evs).calls ++
          (parseTo bcp (Run bcp hd evs).historyDB b.Head.BkSeq).calls) ∧
    (∀ evs rest, events = evs ++ Event.closing :: rest →
      (Run bcp hd evs).returned = false →
      (Run bcp hd events).acked = 1 ∧ (Run bcp hd events).returned = true ∧
      (Run bcp hd events).qClosed = false ∧
      (Run bcp hd events).calls = (Run bcp hd evs).calls ∧
      (Run bcp hd events).historyDB = (Run bcp hd evs).historyDB) ∧
    ((Run bcp hd events).returned = false ↔
      ((Run bcp hd events).qClosed = false ∧ Event.closing ∉ events)) ∧
    ((Run bcp hd events).returned = true ↔
      ((Run bcp hd events).qClosed = true ∨ (Run bcp hd events).acked = 1)) ∧
    ((Run bcp hd events).acked = 1 ↔
      ∃ evs rest, events = evs ++ Event.closing :: rest ∧ (Run bcp hd evs).returned = false) ∧
    ((Run bcp hd []).calls = (parseTo bcp hd bcp.bc.Head.Head.BkSeq).calls ∧
      (Run bcp hd []).historyDB = (parseTo bcp hd bcp.bc.Head.Head.BkSeq).historyDB ∧
      (Run bcp hd []).parsed =
        [(bcp.bc.Head.Head.BkSeq, (parseTo bcp hd bcp.bc.Head.Head.BkSeq).err)] ∧
      ((Run bcp hd []).returned = false ↔
        (parseTo bcp hd bcp.bc.Head.Head.BkSeq).err = none)) ∧
    (∀ evs b, (Run bcp hd evs).returned = false →
      (Run bcp hd (evs ++ [Event.blk b])).calls =
        (Run bcp hd evs).calls ++
          (parseTo bcp (Run bcp hd evs).historyDB b.Head.BkSeq).calls ∧
      (Run bcp hd (evs ++ [Event.blk b])).historyDB =
        (parseTo bcp (Run bcp hd evs).historyDB b.Head.BkSeq).historyDB ∧
      (Run bcp hd (evs ++ [Event.blk b])).parsed =
        (Run bcp hd evs).parsed ++
          [(b.Head.BkSeq, (parseTo bcp (Run bcp hd evs).historyDB b.Head.BkSeq).err)] ∧
      ((Run bcp hd (evs ++ [Event.blk b])).returned = false ↔
        (parseTo bcp (Run bcp hd evs).historyDB b.Head.BkSeq).err = none)) := by
  obtain ⟨i1, i2, i3, i4, i5, i6⟩ := Run_inv bcp hd events
  obtain ⟨blocks, hpre, hmap, hall⟩ := Run_targets bcp hd events
  obtain ⟨k1, k2⟩ := Run_returned_cause bcp hd events
  have hclosing : ∀ evs rest, events = evs ++ Event.closing :: rest →
      (Run bcp hd evs).returned = false →
      (Run bcp hd events).acked = 1 ∧ (Run bcp hd events).returned = true ∧
      (Run bcp hd events).qClosed = false ∧
      (Run bcp hd events).calls = (Run bcp hd evs).calls ∧
      (Run bcp hd events).historyDB = (Run bcp hd evs).historyDB := by
    intro evs rest hev hr
    obtain ⟨_, _, j3, _, _, j6⟩ := Run_inv bcp hd evs
    have hq : (Run bcp hd evs).qClosed = false := by
      cases hq : (Run bcp hd evs).qClosed with
      | false => rfl
      | true => rw [(j3 hq).1] at hr; exact Bool.noConfusion hr
    have hsn : Run bcp hd (evs ++ [Event.closing]) =
        { Run bcp hd evs with acked := (Run bcp hd evs).acked + 1, returned := true } := by
      rw [Run_snoc, step_closing bcp _ hr]
    have hst := Run_stable bcp hd (evs ++ [Event.closing]) rest (by rw [hsn])
    rw [List.append_assoc, List.singleton_append, ← hev] at hst
    rw [hst, hsn]
    refine ⟨?_, rfl, hq, rfl, rfl⟩
    show (Run bcp hd evs).acked + 1 = 1
    rw [(j6 hr).1]
  have isSome_false : ∀ o : Option String, (o.isSome = false ↔ o = none) := by
    intro o; cases o <;> simp
  refine ⟨⟨blocks, hpre, hmap, hall⟩, i2, i1, i3,
    fun h more => Run_stable bcp hd events more h, i4, i5, ?_, ?_, hclosing, ?_, ?_, ?_, ?_, ?_⟩
  · intro herr
    have hsome : (parseTo bcp hd bcp.bc.Head.Head.BkSeq).err.isSome = true := by
      cases h : (parseTo bcp hd bcp.bc.Head.Head.BkSeq).err with
      | none => exact absurd h herr
      | some e => rfl
    have hret : (Run bcp hd []).returned = true := by
      rw [Run_nil]; unfold Run.start; rw [afterParse_returned]; exact hsome
    have hst := Run_stable bcp hd [] events hret
    rw [List.nil_append] at hst
    rw [hst, Run_nil]
    unfold Run.start
    rw [afterParse_qClosed, afterParse_returned, afterParse_calls, hsome]
    exact ⟨rfl, rfl, rfl⟩
  · intro evs b rest hev hr herr
    have hsome : (parseTo bcp (Run bcp hd evs).historyDB b.Head.BkSeq).err.isSome = true := by
      cases h : (parseTo bcp (Run bcp hd evs).historyDB b.Head.BkSeq).err with
      | none => exact absurd h herr
      | some e => rfl
    have hsn : Run bcp hd (evs ++ [Event.blk b]) =
        RunState.afterParse (Run bcp hd evs) b.Head.BkSeq
          (parseTo bcp (Run bcp hd evs).historyDB b.Head.BkSeq) := by
      rw [Run_snoc, step_blk bcp _ b hr]
    have hret : (Run bcp hd (evs ++ [Event.blk b])).returned = true := by
      rw [hsn, afterParse_returned]; exact hsome
    have hst := Run_stable bcp hd (evs ++ [Event.blk b]) rest hret
    rw [List.append_assoc, List.singleton_append, ← hev] at hst
    rw [hst, hsn, afterParse_qClosed, afterParse_returned, afterParse_calls, hsome]
    exact ⟨rfl, rfl, rfl⟩
  · constructor
    · intro hr
      refine ⟨?_, ?_⟩
      · cases hq : (Run bcp hd events).qClosed with
        | false => rfl
        | true => rw [(i3 hq).1] at hr; exact Bool.noConfusion hr
      · intro hm
        rw [← hall hr] at hm
        simp at hm
    · rintro ⟨hq, hno⟩
      cases hr : (Run bcp hd events).returned with
      | false => rfl
      | true =>
        rcases k1 hr with h | h
        · rw [hq] at h; exact Bool.noConfusion h
        · rw [k2 hno] at h; exact absurd h (by decide)
  · constructor
    · exact k1
    · rintro (h | h)
      · exact (i3 h).1
      · exact (i5 h).1
  · constructor
    · intro hack
      have hin : Event.closing ∈ events := by
        by_contra hno
        rw [k2 hno] at hack
        exact absurd hack (by decide)
      obtain ⟨evs, rest, hev, hfirst⟩ := List.eq_append_cons_of_mem hin
      refine ⟨evs, rest, hev, ?_⟩
      cases hr : (Run bcp hd evs).returned with
      | false => rfl
      | true =>
        exfalso
        have hst := Run_stable bcp hd evs (Event.closing :: rest) hr
        rw [← hev] at hst
        rw [hst] at hack
        rcases (Run_returned_cause bcp hd evs).1 hr with h | h
        · have := ((Run_inv bcp hd evs).2.2.1 h).2
          rw [this] at hack; exact absurd hack (by decide)
        · rw [(Run_returned_cause bcp hd evs).2 hfirst] at h
          exact absurd h (by decide)
    · rintro ⟨evs, rest, hev, hr⟩
      exact (hclosing evs rest hev hr).1
  · rw [Run_nil]; unfold Run.start
    rw [afterParse_calls, afterParse_historyDB, afterParse_parsed, afterParse_returned]
    exact ⟨rfl, rfl, rfl, isSome_false _⟩
  · intro evs b hr
    rw [Run_snoc, step_blk bcp _ b hr, afterParse_calls, afterParse_historyDB,
      afterParse_parsed, afterParse_returned]
    exact ⟨rfl, rfl, rfl, isSome_false _⟩

end Visor
